import Mathlib

/-!
# Formal model of the smurves curve generator

Shallow embedding of `src/smurves/smurves.py` (the packaged module).
Every call to the random number source (`random.uniform`, `random.sample`,
`np.random.randint`, `np.random.choice`) is modelled as an oracle input:
the value the draw returned is passed in explicitly, so theorems quantify
over all possible outcomes of the draws.  Real-valued arithmetic of the
source (numpy floats) is modelled over the real numbers.
-/

namespace Smurves

/-! ## Batch engine: validity filter and retry loop

`deletion` (source `deletion`, lines 369-379) removes every curve that has a
y-coordinate strictly below `ylo` or strictly above `yhi`.  A curve is a list
of (x, y) pairs.  The definitions are generic over a linear order so the
filter is executable. -/

/-- The per-curve validity check of `deletion`: the curve is kept when no
y-coordinate is strictly below `ylo` or strictly above `yhi`. -/
def curveOK {α : Type} [LinearOrder α] (ylo yhi : α) (c : List (α × α)) : Bool :=
  !(c.any (fun p => decide (p.2 < ylo)) || c.any (fun p => decide (yhi < p.2)))

/-- `deletion` (source lines 369-379): delete the curves that leave the
y-interval, keep the rest in order. -/
def deletion {α : Type} [LinearOrder α] (ylo yhi : α) (curves : List (List (α × α))) :
    List (List (α × α)) :=
  curves.filter (curveOK ylo yhi)

/-- The accumulation inside `generator` (lines 565, 699-707): each newly
generated raw curve is appended to the running list and `deletion` is run on
the whole list.  The raw curves themselves are oracle inputs. -/
def generatorAccum {α : Type} [LinearOrder α] (ylo yhi : α) :
    List (List (α × α)) → List (List (α × α)) → List (List (α × α))
  | [], acc => acc
  | r :: rest, acc => generatorAccum ylo yhi rest (deletion ylo yhi (acc ++ [r]))

/-- The retry loop of `surgebinder` (lines 274-306): while fewer than
`request` curves are accumulated, call `generator` with `n_curves = 1` (one
raw curve `raw i`, filtered by `deletion`) and append the result.  The
source loop is unbounded; `fuel` bounds the number of retries, and `none`
means the fuel ran out before the loop condition was reached. -/
def topUp {α : Type} [LinearOrder α] (ylo yhi : α) (request : ℕ)
    (raw : ℕ → List (α × α)) : ℕ → ℕ → List (List (α × α)) →
    Option (List (List (α × α)))
  | 0, _, acc => if request ≤ acc.length then some acc else none
  | fuel + 1, i, acc =>
    if request ≤ acc.length then some acc
    else topUp ylo yhi request raw fuel (i + 1) (acc ++ generatorAccum ylo yhi [raw i] [])

/-- The curve-producing core of `surgebinder` (lines 246-306): a first
`generator` pass over `raws` (one raw curve per requested curve), then the
retry loop drawing raw curves from the stream `raw`. -/
def surgebinderCore {α : Type} [LinearOrder α] (ylo yhi : α) (request fuel : ℕ)
    (raws : List (List (α × α))) (raw : ℕ → List (α × α)) :
    Option (List (List (α × α))) :=
  topUp ylo yhi request raw fuel 0 (generatorAccum ylo yhi raws [])

/-- Log-scale relabelling (source lines 308-315): point `j` of each curve
gets its x-coordinate overwritten with `logsteps[j]`; y is untouched. -/
def relabel {α : Type} (logsteps : List α) (c : List (α × α)) : List (α × α) :=
  List.zipWith (fun s p => (s, p.2)) logsteps c

/-- Right-side convergence flip (source lines 317-319): the y-column is
reversed in place, x-coordinates keep their positions. -/
def flipY {α : Type} (c : List (α × α)) : List (α × α) :=
  List.zipWith (fun p q => (p.1, q.2)) c c.reverse

/-- The output post-processing of `surgebinder` (lines 308-319): optional
log-scale relabelling followed by the optional right-convergence flip. -/
def postProcess {α : Type} (logFlag rightFlag : Bool) (logsteps : List α)
    (curves : List (List (α × α))) : List (List (α × α)) :=
  let c1 := if logFlag then curves.map (relabel logsteps) else curves
  if rightFlag then c1.map flipY else c1

/-! ## Change-point sampler

Source lines 592-606: starting from the (possibly pre-seeded) list of
accepted change points, repeatedly draw a candidate from the restricted
sub-range and accept it when its index distance to every accepted point is
at least `spacing`; stop once `need` candidates were accepted, then sort
ascending.  The stream of drawn candidates is an oracle input (`cands`),
which also bounds the number of loop iterations: an empty remainder with
accepted points still needed models the loop not having terminated yet. -/

/-- The rejection loop of the change-point sampler (lines 597-605). -/
def sampleLoop (spacing : ℕ) : ℕ → List ℕ → List ℕ → Option (List ℕ)
  | 0, _, acc => some acc
  | _ + 1, [], _ => none
  | need + 1, c :: rest, acc =>
    if acc.all (fun p => decide (spacing ≤ Nat.dist p c)) then
      sampleLoop spacing need rest (acc ++ [c])
    else
      sampleLoop spacing (need + 1) rest acc

/-- The pre-seeded accepted list (lines 592-596): the mandatory flat-start
change point when a flat start is configured, nothing otherwise. -/
def initCPs : Option ℕ → List ℕ
  | some f => [f]
  | none => []

/-- The full change-point set of one curve (lines 592-606): run the
rejection loop, then sort ascending (`np.sort`). -/
def changePoints (spacing need : ℕ) (cands : List ℕ) (flat : Option ℕ) :
    Option (List ℕ) :=
  (sampleLoop spacing need cands (initCPs flat)).map (List.insertionSort (· ≤ ·))

/-! ## Horizontal scale builder

Source lines 213-217 (linear grid) and `logarithmic`, lines 772-777
(`np.logspace` over the log10 interval). -/

/-- Linear step size (line 215): `(x1 - x0) / (n_measure - 1)`. -/
noncomputable def stepSize (x0 x1 : ℝ) (n : ℕ) : ℝ := (x1 - x0) / ((n : ℝ) - 1)

/-- Linear sample grid (lines 216-217): `steps[i] = x0 + i * step_size`. -/
noncomputable def linSteps (x0 delta : ℝ) (n : ℕ) : List ℝ :=
  (List.range n).map (fun i : ℕ => x0 + (i : ℝ) * delta)

/-- Logarithmic sample grid (`logarithmic`, lines 772-777):
`np.logspace(log10 x0, log10 x1, n)`. -/
noncomputable def logSteps (x0 x1 : ℝ) (n : ℕ) : List ℝ :=
  (List.range n).map (fun i : ℕ =>
    (10 : ℝ) ^ (Real.logb 10 x0 +
      (i : ℝ) * ((Real.logb 10 x1 - Real.logb 10 x0) / ((n : ℝ) - 1))))

/-! ## Trajectory integrator

Source `trajectory`, lines 863-900.  The loop over `range(1, len(psteps))`
accumulates the horizontal displacement by `step_size` per iteration and
recomputes vertical velocity, displacement and total velocity from scratch
each time. -/

/-- Result record of `trajectory`: the measurement points with the last one
removed, the last point, the impact angle, and the final velocity. -/
structure TrajResult where
  points : List (ℝ × ℝ)
  last : ℝ × ℝ
  angle : ℝ
  vel : ℝ

/-- The loop body of `trajectory` (lines 873-890).  Arguments after the
seven fixed parameters: the remaining sample positions, the accumulated
horizontal displacement, the current vertical velocity, the current total
velocity, and the accumulated point list. -/
noncomputable def trajLoop (force sv theta vx d y0 delta : ℝ) :
    List ℝ → ℝ → ℝ → ℝ → List (ℝ × ℝ) → List (ℝ × ℝ) × ℝ × ℝ
  | [], _, vy, vel, acc => (acc, vy, vel)
  | dist :: rest, hd, _, _, acc =>
    let hd2 := hd + delta
    let t := hd2 / vx
    let vy2 := sv * Real.sin theta - force * t
    let vdisp := -(sv * (Real.sin theta * t) - 0.5 * (force * t ^ 2))
    let vel2 := Real.sqrt (vx ^ 2 + vy2 ^ 2)
    trajLoop force sv theta vx d y0 delta rest hd2 vy2 vel2
      (acc ++ [(dist, y0 + d * vdisp)])

/-- Closed-form spec of the point list produced by the loop of
`trajectory`, used to state and prove its properties. -/
noncomputable def trajPts (force sv theta vx d y0 delta : ℝ) : ℝ → List ℝ → List (ℝ × ℝ)
  | _, [] => []
  | hd, dist :: rest =>
    (dist, y0 + d * (-(sv * (Real.sin theta * ((hd + delta) / vx)) -
        0.5 * (force * ((hd + delta) / vx) ^ 2))))
      :: trajPts force sv theta vx d y0 delta (hd + delta) rest

/-- `trajectory` (lines 863-900): run the loop starting from the segment's
start point, then split off the final point and compute the impact angle
and exit velocity. -/
noncomputable def trajectory (force velocity d delta : ℝ) (startPoint : ℝ × ℝ)
    (launchAngle : ℝ) (psteps : List ℝ) : TrajResult :=
  let vx := velocity * Real.cos launchAngle
  let vy0 := velocity * Real.sin launchAngle
  let res := trajLoop force velocity launchAngle vx d startPoint.2 delta
    psteps.tail 0 vy0 velocity [startPoint]
  { points := res.1.dropLast
    last := res.1.getLastD startPoint
    angle := Real.arctan (-res.2.1 / vx)
    vel := res.2.2 }

/-! ## Force bounds

Source lines 616-621 (before the first segment) and 677-682 (between
segments): the maximum admissible constant force. -/

/-- y-interval indexing `y_interval[np.maximum(0, direction)]` for
`direction` in {-1, 1}. -/
noncomputable def yBound (ylo yhi : ℝ) (d : ℤ) : ℝ :=
  if max 0 d = 0 then ylo else yhi

/-- Force bound before the first segment (lines 616-621): note the source
uses `rest_time = x_interval[1] / velocity`, not the remaining distance. -/
noncomputable def forceMaxInit (x1 ylo yhi : ℝ) (p : ℝ × ℝ) (d : ℤ) (v theta : ℝ) : ℝ :=
  let restTime := x1 / v
  let maxRange := yBound ylo yhi d - p.2
  let absMax := (-(d : ℝ)) * maxRange
  let spread := v * Real.sin theta - absMax
  2 * spread / restTime ^ 2

/-- Force bound between segments (lines 677-682):
`rest_time = (x_interval[1] - last_point[0]) / velocity` and
`force_max = 2 * spread / rest_time ^ 2`. -/
noncomputable def forceMaxSeg (x1 ylo yhi : ℝ) (p : ℝ × ℝ) (d : ℤ) (v theta : ℝ) : ℝ :=
  let restTime := (x1 - p.1) / v
  let maxRange := yBound ylo yhi d - p.2
  let absMax := (-(d : ℝ)) * maxRange
  let spread := v * Real.sin theta - absMax
  2 * spread / restTime ^ 2

/-- The force bound as the specification states it: `2 * (v * sin theta -
(-d) * headroom) / R ^ 2` with `R = x1 - p.1` the remaining horizontal
distance.  Stated from the spec's words, for comparison with
`forceMaxSeg`. -/
noncomputable def forceMaxClaimed (x1 ylo yhi : ℝ) (p : ℝ × ℝ) (d : ℤ) (v theta : ℝ) : ℝ :=
  let headroom := yBound ylo yhi d - p.2
  2 * (v * Real.sin theta - (-(d : ℝ)) * headroom) / (x1 - p.1) ^ 2

/-! ## Single-curve generator

Source lines 624-703: slice the grid at consecutive change points,
integrate each slice with `trajectory`, flip the direction after every
slice, and carry last point, velocity and angle to the next slice.  The
force of each partial trajectory is the value of the last uniform draw
before its `trajectory` call; those draws are supplied by the oracle
`F : part index → force`. -/

/-- The segment loop of `generator` (lines 632-698), returning the
concatenated per-segment point lists together with the final point. -/
noncomputable def buildParts (delta : ℝ) (F : ℕ → ℝ) (steps : List ℝ) :
    List ℕ → ℕ → ℕ → (ℝ × ℝ) → ℝ → ℝ → ℝ → List (ℝ × ℝ) × (ℝ × ℝ)
  | [], counter, part, start, d, v, theta =>
    let r := trajectory (F part) v d delta start theta (steps.drop counter)
    (r.points, r.last)
  | c :: cs, counter, part, start, d, v, theta =>
    let r := trajectory (F part) v d delta start theta
      ((steps.drop counter).take (c + 1 - counter))
    let rest := buildParts delta F steps cs c (part + 1) r.last (-d) r.vel r.angle
    (r.points ++ rest.1, rest.2)

/-- One complete curve of `generator` (lines 624-703): the initial velocity
is 1.0 (line 610); the accumulated path drops the duplicated initial point
and appends the true final point (lines 699-702). -/
noncomputable def buildCurve (delta : ℝ) (F : ℕ → ℝ) (steps : List ℝ)
    (cps : List ℕ) (p0 : ℝ × ℝ) (d theta : ℝ) : List (ℝ × ℝ) :=
  let r := buildParts delta F steps cps 0 0 p0 d 1 theta
  r.1 ++ [r.2]

/-- The starting point of a curve (lines 566-569, 624-625): the configured
convergence point when one is given, otherwise the left edge of the
x-interval paired with the y-value `u` drawn by `uniform(y_interval[0],
y_interval[1])`. -/
def startPointOf (cp : Option (ℝ × ℝ)) (x0 u : ℝ) : ℝ × ℝ :=
  match cp with
  | some P => P
  | none => (x0, u)

/-- The grid wiring of `surgebinder` (lines 213-217) feeding `generator`:
one curve built on the linear grid. -/
noncomputable def generatedCurve (x0 x1 : ℝ) (n : ℕ) (cps : List ℕ)
    (p0 : ℝ × ℝ) (d theta : ℝ) (F : ℕ → ℝ) : List (ℝ × ℝ) :=
  buildCurve (stepSize x0 x1 n) F (linSteps x0 (stepSize x0 x1 n) n) cps p0 d theta

/-! ## Helper lemmas on lists -/

theorem dropLast_append_getLastD {α : Type} (a : α) :
    ∀ l : List α, l ≠ [] → l.dropLast ++ [l.getLastD a] = l := by
  intro l
  induction l with
  | nil => intro h; exact absurd rfl h
  | cons x t ih =>
    intro _
    cases t with
    | nil => simp
    | cons y t' =>
      rw [List.dropLast_cons₂, List.getLastD_cons]
      exact congrArg (x :: ·) (ih (by simp))

theorem zipWith_left_eq {α β : Type} :
    ∀ (l : List α) (c : List β), l.length ≤ c.length →
      List.zipWith (fun s _ => s) l c = l := by
  intro l
  induction l with
  | nil => intro c _; simp
  | cons x t ih =>
    intro c hc
    cases c with
    | nil => simp at hc
    | cons y c' =>
      simp only [List.zipWith_cons_cons]
      exact congrArg (x :: ·) (ih c' (by simpa using hc))

theorem mem_zipWith_exists {α β γ : Type} {f : α → β → γ} :
    ∀ {l1 : List α} {l2 : List β} {c : γ}, c ∈ List.zipWith f l1 l2 →
      ∃ a ∈ l1, ∃ b ∈ l2, c = f a b := by
  intro l1
  induction l1 with
  | nil => intro l2 c h; simp at h
  | cons x t ih =>
    intro l2 c h
    cases l2 with
    | nil => simp at h
    | cons y l2' =>
      rcases List.mem_cons.mp h with h1 | h2
      · exact ⟨x, by simp, y, by simp, h1⟩
      · obtain ⟨a, ha, b, hb, hc⟩ := ih h2
        exact ⟨a, List.mem_cons_of_mem _ ha, b, List.mem_cons_of_mem _ hb, hc⟩

/-! ## Trajectory integrator lemmas -/

theorem trajLoop_fst (force sv theta vx d y0 delta : ℝ) :
    ∀ (rest : List ℝ) (hd vy vel : ℝ) (acc : List (ℝ × ℝ)),
      (trajLoop force sv theta vx d y0 delta rest hd vy vel acc).1
        = acc ++ trajPts force sv theta vx d y0 delta hd rest := by
  intro rest
  induction rest with
  | nil => intro hd vy vel acc; simp [trajLoop, trajPts]
  | cons dist rest ih =>
    intro hd vy vel acc
    rw [trajLoop, trajPts, ih]
    simp

theorem trajPts_map_fst (force sv theta vx d y0 delta : ℝ) :
    ∀ (rest : List ℝ) (hd : ℝ),
      (trajPts force sv theta vx d y0 delta hd rest).map Prod.fst = rest := by
  intro rest
  induction rest with
  | nil => intro hd; simp [trajPts]
  | cons dist rest ih => intro hd; simp [trajPts, ih]

theorem trajPts_getElem (force sv theta vx d y0 delta : ℝ) :
    ∀ (rest : List ℝ) (hd : ℝ) (j : ℕ),
      (trajPts force sv theta vx d y0 delta hd rest)[j]?
        = rest[j]?.map (fun dist =>
            (dist, y0 + d * (-(sv * (Real.sin theta * ((hd + ((j : ℝ) + 1) * delta) / vx)) -
              0.5 * (force * ((hd + ((j : ℝ) + 1) * delta) / vx) ^ 2))))) := by
  intro rest
  induction rest with
  | nil => intro hd j; simp [trajPts]
  | cons dist rest ih =>
    intro hd j
    cases j with
    | zero =>
      rw [trajPts]
      norm_num
    | succ j =>
      rw [trajPts]
      simp only [List.getElem?_cons_succ]
      rw [ih]
      have harg : hd + delta + ((j : ℝ) + 1) * delta = hd + ((j : ℝ) + 1 + 1) * delta := by
        ring
      rw [harg]
      norm_num

theorem trajLoop_snd_cons (force sv theta vx d y0 delta : ℝ) :
    ∀ (rest : List ℝ) (dist hd vy vel : ℝ) (acc : List (ℝ × ℝ)),
      (trajLoop force sv theta vx d y0 delta (dist :: rest) hd vy vel acc).2
        = (sv * Real.sin theta - force * ((hd + ((rest.length : ℝ) + 1) * delta) / vx),
           Real.sqrt (vx ^ 2 +
             (sv * Real.sin theta - force * ((hd + ((rest.length : ℝ) + 1) * delta) / vx)) ^ 2)) := by
  intro rest
  induction rest with
  | nil =>
    intro dist hd vy vel acc
    rw [trajLoop, trajLoop]
    norm_num
  | cons d2 rest ih =>
    intro dist hd vy vel acc
    rw [trajLoop]
    rw [ih]
    have harg : hd + delta + ((rest.length : ℝ) + 1) * delta
        = hd + (((d2 :: rest).length : ℝ) + 1) * delta := by
      simp only [List.length_cons]
      push_cast
      ring
    rw [harg]

theorem trajectory_full (force v d delta theta : ℝ) (p0 : ℝ × ℝ) (ps : List ℝ) :
    (trajectory force v d delta p0 theta ps).points
        ++ [(trajectory force v d delta p0 theta ps).last]
      = p0 :: trajPts force v theta (v * Real.cos theta) d p0.2 delta 0 ps.tail := by
  unfold trajectory
  simp only
  rw [trajLoop_fst]
  have hne : p0 :: trajPts force v theta (v * Real.cos theta) d p0.2 delta 0 ps.tail ≠ [] := by
    simp
  simpa using dropLast_append_getLastD p0 _ hne

theorem trajectory_x (force v d delta theta : ℝ) (p0 : ℝ × ℝ) (ps : List ℝ) :
    (trajectory force v d delta p0 theta ps).points.map Prod.fst
        ++ [(trajectory force v d delta p0 theta ps).last.1]
      = p0.1 :: ps.tail := by
  have h := congrArg (List.map Prod.fst) (trajectory_full force v d delta theta p0 ps)
  rw [List.map_append] at h
  simpa [trajPts_map_fst] using h

/-! ## Single-curve stitching lemmas -/

theorem concat_head_or {α : Type} : ∀ (A : List α) (x s : α) (T : List α),
    A ++ [x] = s :: T → A.head?.or (some x) = some s := by
  intro A x s T h
  cases A with
  | nil =>
    simp only [List.nil_append, List.cons.injEq] at h
    simp [h.1]
  | cons a A' =>
    simp only [List.cons_append, List.cons.injEq] at h
    simp [h.1]

theorem buildParts_head (delta : ℝ) (F : ℕ → ℝ) (steps : List ℝ) :
    ∀ (cps : List ℕ) (counter part : ℕ) (start : ℝ × ℝ) (d v theta : ℝ),
      ((buildParts delta F steps cps counter part start d v theta).1
        ++ [(buildParts delta F steps cps counter part start d v theta).2]).head?
      = some start := by
  intro cps
  induction cps with
  | nil =>
    intro counter part start d v theta
    simp only [buildParts]
    rw [trajectory_full]
    simp
  | cons c cs ih =>
    intro counter part start d v theta
    simp only [buildParts]
    rw [List.append_assoc, List.head?_append, ih]
    exact concat_head_or _ _ _ _
      (trajectory_full (F part) v d delta theta start
        ((steps.drop counter).take (c + 1 - counter)))

theorem buildParts_x (delta : ℝ) (F : ℕ → ℝ) (steps : List ℝ) :
    ∀ (cps : List ℕ) (counter part : ℕ) (start : ℝ × ℝ) (d v theta : ℝ),
      cps.Pairwise (· < ·) →
      (∀ c ∈ cps, counter ≤ c ∧ c < steps.length) →
      counter < steps.length →
      steps[counter]? = some start.1 →
      (buildParts delta F steps cps counter part start d v theta).1.map Prod.fst
        ++ [(buildParts delta F steps cps counter part start d v theta).2.1]
      = steps.drop counter := by
  intro cps
  induction cps with
  | nil =>
    intro counter part start d v theta _ _ _ hstart
    simp only [buildParts]
    rw [trajectory_x]
    have h1 : start.1 ∈ (steps.drop counter).head? := by
      rw [List.head?_drop, hstart]; rfl
    exact List.cons_head?_tail h1
  | cons c cs ih =>
    intro counter part start d v theta hpw hmem hcnt hstart
    obtain ⟨hcc, hcN⟩ := hmem c (List.mem_cons_self c cs)
    have hps_head : ((steps.drop counter).take (c + 1 - counter)).head? = some start.1 := by
      rw [List.head?_eq_getElem?, List.getElem?_take, if_pos (by omega),
        ← List.head?_eq_getElem?, List.head?_drop]
      exact hstart
    have hfull := trajectory_x (F part) v d delta theta start
      ((steps.drop counter).take (c + 1 - counter))
    rw [List.cons_head?_tail (show start.1 ∈ _ from by rw [hps_head]; rfl)] at hfull
    have hlen_ps : ((steps.drop counter).take (c + 1 - counter)).length = c + 1 - counter := by
      rw [List.length_take, List.length_drop]
      omega
    have hps_last : ((steps.drop counter).take (c + 1 - counter)).getLast? = steps[c]? := by
      rw [List.getLast?_eq_getElem?, hlen_ps, List.getElem?_take, if_pos (by omega),
        List.getElem?_drop]
      congr 1
      omega
    have hc_last : steps[c]? = some (trajectory (F part) v d delta start theta
        ((steps.drop counter).take (c + 1 - counter))).last.1 := by
      rw [← hps_last]
      conv_lhs => rw [← hfull]
      rw [List.getLast?_concat]
    have hrec := ih c (part + 1)
      (trajectory (F part) v d delta start theta
        ((steps.drop counter).take (c + 1 - counter))).last (-d)
      (trajectory (F part) v d delta start theta
        ((steps.drop counter).take (c + 1 - counter))).vel
      (trajectory (F part) v d delta start theta
        ((steps.drop counter).take (c + 1 - counter))).angle
      hpw.of_cons
      (fun c' hc' => ⟨(List.rel_of_pairwise_cons hpw hc').le, (hmem c' (List.mem_cons_of_mem _ hc')).2⟩)
      hcN hc_last
    simp only [buildParts]
    rw [List.map_append, List.append_assoc, hrec]
    have hdropc : steps.drop c
        = (trajectory (F part) v d delta start theta
            ((steps.drop counter).take (c + 1 - counter))).last.1 :: steps.drop (c + 1) := by
      rw [List.drop_eq_getElem_cons hcN]
      congr 1
      have := hc_last
      rw [List.getElem?_eq_getElem hcN] at this
      exact Option.some.inj this
    rw [hdropc, ← List.singleton_append, ← List.append_assoc, hfull]
    have hdd : steps.drop (c + 1) = (steps.drop counter).drop (c + 1 - counter) := by
      rw [List.drop_drop]
      congr 1
      omega
    rw [hdd, List.take_append_drop]

/-! ## Batch engine lemmas -/

theorem curveOK_eq_true_iff {α : Type} [LinearOrder α] (ylo yhi : α) (c : List (α × α)) :
    curveOK ylo yhi c = true ↔ ∀ p ∈ c, ylo ≤ p.2 ∧ p.2 ≤ yhi := by
  simp only [curveOK, Bool.not_eq_true', Bool.or_eq_false_iff, List.any_eq_false,
    decide_eq_true_eq, not_lt]
  constructor
  · rintro ⟨h1, h2⟩ p hp
    exact ⟨h1 p hp, h2 p hp⟩
  · intro h
    exact ⟨fun p hp => (h p hp).1, fun p hp => (h p hp).2⟩

theorem mem_deletion_bounds {α : Type} [LinearOrder α] {ylo yhi : α}
    {l : List (List (α × α))} {c : List (α × α)} (h : c ∈ deletion ylo yhi l) :
    ∀ p ∈ c, ylo ≤ p.2 ∧ p.2 ≤ yhi :=
  (curveOK_eq_true_iff ylo yhi c).mp (List.of_mem_filter h)

theorem deletion_append {α : Type} [LinearOrder α] (ylo yhi : α)
    (l1 l2 : List (List (α × α))) :
    deletion ylo yhi (l1 ++ l2) = deletion ylo yhi l1 ++ deletion ylo yhi l2 :=
  List.filter_append _ _

theorem deletion_idem {α : Type} [LinearOrder α] (ylo yhi : α) (l : List (List (α × α))) :
    deletion ylo yhi (deletion ylo yhi l) = deletion ylo yhi l := by
  simp [deletion, List.filter_filter]

theorem generatorAccum_eq {α : Type} [LinearOrder α] (ylo yhi : α) :
    ∀ (raws acc : List (List (α × α))),
      generatorAccum ylo yhi raws (deletion ylo yhi acc) = deletion ylo yhi (acc ++ raws) := by
  intro raws
  induction raws with
  | nil => intro acc; simp [generatorAccum]
  | cons r rest ih =>
    intro acc
    rw [generatorAccum]
    have h1 : deletion ylo yhi (deletion ylo yhi acc ++ [r])
        = deletion ylo yhi (acc ++ [r]) := by
      rw [deletion_append, deletion_idem, ← deletion_append]
    rw [h1, ih (acc ++ [r])]
    simp

theorem generatorAccum_of_nil {α : Type} [LinearOrder α] (ylo yhi : α)
    (raws : List (List (α × α))) :
    generatorAccum ylo yhi raws [] = deletion ylo yhi raws := by
  have h := generatorAccum_eq ylo yhi raws []
  simpa [deletion] using h

theorem topUp_length {α : Type} [LinearOrder α] (ylo yhi : α) (request : ℕ)
    (raw : ℕ → List (α × α)) :
    ∀ (fuel i : ℕ) (acc out : List (List (α × α))),
      acc.length ≤ request →
      topUp ylo yhi request raw fuel i acc = some out →
      out.length = request := by
  intro fuel
  induction fuel with
  | zero =>
    intro i acc out hle h
    rw [topUp] at h
    split at h
    · cases h; omega
    · cases h
  | succ f ih =>
    intro i acc out hle h
    rw [topUp] at h
    split at h
    next hreq => cases h; omega
    next hreq =>
      refine ih (i + 1) _ out ?_ h
      have hone : (generatorAccum ylo yhi [raw i] []).length ≤ 1 := by
        rw [generatorAccum_of_nil]
        exact List.length_filter_le _ _
      rw [List.length_append]
      omega

theorem topUp_bounds {α : Type} [LinearOrder α] (ylo yhi : α) (request : ℕ)
    (raw : ℕ → List (α × α)) :
    ∀ (fuel i : ℕ) (acc out : List (List (α × α))),
      (∀ c ∈ acc, ∀ p ∈ c, ylo ≤ p.2 ∧ p.2 ≤ yhi) →
      topUp ylo yhi request raw fuel i acc = some out →
      ∀ c ∈ out, ∀ p ∈ c, ylo ≤ p.2 ∧ p.2 ≤ yhi := by
  intro fuel
  induction fuel with
  | zero =>
    intro i acc out hacc h
    rw [topUp] at h
    split at h
    · cases h; exact hacc
    · cases h
  | succ f ih =>
    intro i acc out hacc h
    rw [topUp] at h
    split at h
    next => cases h; exact hacc
    next =>
      refine ih (i + 1) _ out ?_ h
      intro c hc
      rcases List.mem_append.mp hc with h1 | h2
      · exact hacc c h1
      · rw [generatorAccum_of_nil] at h2
        exact mem_deletion_bounds h2

theorem mem_relabel_y {α : Type} (L : List α) (c0 : List (α × α)) (p : α × α)
    (h : p ∈ relabel L c0) : ∃ q ∈ c0, p.2 = q.2 := by
  obtain ⟨s, _, q, hq, hpq⟩ := mem_zipWith_exists h
  exact ⟨q, hq, by rw [hpq]⟩

theorem mem_flipY_y {α : Type} (c0 : List (α × α)) (p : α × α)
    (h : p ∈ flipY c0) : ∃ q ∈ c0, p.2 = q.2 := by
  obtain ⟨a, _, b, hb, hpq⟩ := mem_zipWith_exists h
  exact ⟨b, List.mem_reverse.mp hb, by rw [hpq]⟩

theorem postProcess_length {α : Type} (logF rightF : Bool) (L : List α)
    (curves : List (List (α × α))) :
    (postProcess logF rightF L curves).length = curves.length := by
  unfold postProcess
  cases logF <;> cases rightF <;> simp

theorem mem_postProcess_y {α : Type} (logF rightF : Bool) (L : List α)
    (curves : List (List (α × α))) (c : List (α × α))
    (h : c ∈ postProcess logF rightF L curves) :
    ∀ p ∈ c, ∃ c0 ∈ curves, ∃ q ∈ c0, p.2 = q.2 := by
  unfold postProcess at h
  cases logF <;> cases rightF <;> simp only [Bool.false_eq_true, if_false, if_true,
    List.mem_map, cond_true, cond_false] at h
  · exact fun p hp => ⟨c, h, p, hp, rfl⟩
  · obtain ⟨c0, hc0, rfl⟩ := h
    intro p hp
    obtain ⟨q, hq, hpq⟩ := mem_flipY_y c0 p hp
    exact ⟨c0, hc0, q, hq, hpq⟩
  · obtain ⟨c0, hc0, rfl⟩ := h
    intro p hp
    obtain ⟨q, hq, hpq⟩ := mem_relabel_y L c0 p hp
    exact ⟨c0, hc0, q, hq, hpq⟩
  · obtain ⟨c1, hc1, rfl⟩ := h
    obtain ⟨c0, hc0, rfl⟩ := hc1
    intro p hp
    obtain ⟨q, hq, hpq⟩ := mem_flipY_y _ p hp
    obtain ⟨q', hq', hqq⟩ := mem_relabel_y L c0 q hq
    exact ⟨c0, hc0, q', hq', by rw [hpq, hqq]⟩

/-! ## Change-point sampler lemmas -/

theorem sampleLoop_some (spacing : ℕ) :
    ∀ (cands : List ℕ) (need : ℕ) (acc out : List ℕ),
      sampleLoop spacing need cands acc = some out →
      out.length = acc.length + need
      ∧ (∀ x ∈ out, x ∈ acc ∨ x ∈ cands)
      ∧ (acc.Pairwise (fun a b => spacing ≤ Nat.dist a b) →
          out.Pairwise (fun a b => spacing ≤ Nat.dist a b)) := by
  intro cands
  induction cands with
  | nil =>
    intro need acc out h
    cases need with
    | zero =>
      rw [sampleLoop] at h
      cases h
      exact ⟨by omega, fun x hx => Or.inl hx, fun hp => hp⟩
    | succ n => rw [sampleLoop] at h; cases h
  | cons c rest ih =>
    intro need acc out h
    cases need with
    | zero =>
      rw [sampleLoop] at h
      cases h
      exact ⟨by omega, fun x hx => Or.inl hx, fun hp => hp⟩
    | succ n =>
      rw [sampleLoop] at h
      split at h
      next hall =>
        obtain ⟨hlen, hmem, hpw⟩ := ih n (acc ++ [c]) out h
        refine ⟨by simp at hlen; omega, ?_, ?_⟩
        · intro x hx
          rcases hmem x hx with h1 | h2
          · rcases List.mem_append.mp h1 with ha | hc
            · exact Or.inl ha
            · exact Or.inr (by simp at hc; simp [hc])
          · exact Or.inr (List.mem_cons_of_mem _ h2)
        · intro hp
          refine hpw (List.pairwise_append.mpr ⟨hp, List.pairwise_singleton _ _, ?_⟩)
          intro a ha b hb
          rw [List.mem_singleton.mp hb]
          have := List.all_eq_true.mp hall a ha
          exact of_decide_eq_true this
      next =>
        obtain ⟨hlen, hmem, hpw⟩ := ih (n + 1) acc out h
        refine ⟨hlen, ?_, hpw⟩
        intro x hx
        rcases hmem x hx with h1 | h2
        · exact Or.inl h1
        · exact Or.inr (List.mem_cons_of_mem _ h2)

theorem sampleLoop_all_accept (spacing : ℕ) :
    ∀ (cands acc : List ℕ),
      cands.Pairwise (fun a b => spacing ≤ Nat.dist a b) →
      (∀ c ∈ cands, ∀ p ∈ acc, spacing ≤ Nat.dist p c) →
      ∃ out, sampleLoop spacing cands.length cands acc = some out := by
  intro cands
  induction cands with
  | nil => intro acc _ _; exact ⟨acc, rfl⟩
  | cons c rest ih =>
    intro acc hpw hcr
    rw [List.length_cons, sampleLoop, if_pos]
    · refine ih (acc ++ [c]) hpw.of_cons ?_
      intro c' hc' p hp
      rcases List.mem_append.mp hp with h1 | h2
      · exact hcr c' (List.mem_cons_of_mem _ hc') p h1
      · rw [List.mem_singleton.mp h2]
        exact List.rel_of_pairwise_cons hpw hc'
    · rw [List.all_eq_true]
      intro p hp
      exact decide_eq_true (hcr c (List.mem_cons_self c rest) p hp)

theorem div_lt_div_of_spaced {s A a b : ℕ} (hs : 1 ≤ s) (ha : A ≤ a)
    (hab : a + s ≤ b) : (a - A) / s < (b - A) / s := by
  have h1 : (a - A) + s ≤ b - A := by omega
  calc (a - A) / s < (a - A) / s + 1 := Nat.lt_succ_self _
    _ = ((a - A) + s) / s := (Nat.add_div_right _ (by omega)).symm
    _ ≤ (b - A) / s := Nat.div_le_div_right h1

theorem div_ne_of_spaced {s A a b : ℕ} (hs : 1 ≤ s) (ha : A ≤ a) (hb : A ≤ b)
    (hd : s ≤ Nat.dist a b) : (a - A) / s ≠ (b - A) / s := by
  have hor : a + s ≤ b ∨ b + s ≤ a := by
    simp only [Nat.dist] at hd
    omega
  rcases hor with h | h
  · exact (div_lt_div_of_spaced hs ha h).ne
  · exact (div_lt_div_of_spaced hs hb h).ne'

theorem pairwise_spaced_length_le (s A B : ℕ) (hs : 1 ≤ s) (l : List ℕ)
    (hpw : l.Pairwise (fun a b => s ≤ Nat.dist a b))
    (hmem : ∀ x ∈ l, A ≤ x ∧ x ≤ B) :
    l.length ≤ (B - A) / s + 1 := by
  have hpw2 : l.Pairwise (fun a b => a ∈ l ∧ b ∈ l ∧ s ≤ Nat.dist a b) :=
    List.Pairwise.and_mem.mp hpw
  have hnd : (l.map (fun x => (x - A) / s)).Nodup := by
    rw [List.Nodup, List.pairwise_map]
    exact hpw2.imp (fun hab =>
      div_ne_of_spaced hs (hmem _ hab.1).1 (hmem _ hab.2.1).1 hab.2.2)
  have hsub : (l.map (fun x => (x - A) / s)).toFinset ⊆ Finset.range ((B - A) / s + 1) := by
    intro y hy
    rw [List.mem_toFinset, List.mem_map] at hy
    obtain ⟨x, hx, rfl⟩ := hy
    rw [Finset.mem_range]
    have : (x - A) / s ≤ (B - A) / s :=
      Nat.div_le_div_right (by have := (hmem x hx).2; omega)
    omega
  have h1 : (l.map (fun x => (x - A) / s)).toFinset.card
      = (l.map (fun x => (x - A) / s)).length :=
    List.toFinset_card_of_nodup hnd
  have h2 := Finset.card_le_card hsub
  rw [h1, Finset.card_range, List.length_map] at h2
  exact h2

/-! ## Sample grid lemmas -/

theorem linSteps_length (x0 delta : ℝ) (n : ℕ) : (linSteps x0 delta n).length = n := by
  simp [linSteps]

theorem logSteps_length (x0 x1 : ℝ) (n : ℕ) : (logSteps x0 x1 n).length = n := by
  simp [logSteps]

theorem linSteps_zero (x0 delta : ℝ) (n : ℕ) (hn : 1 ≤ n) :
    (linSteps x0 delta n)[0]? = some x0 := by
  unfold linSteps
  rw [List.getElem?_map, List.getElem?_range (by omega)]
  simp

/-! ## Claim theorems -/

/-- C1: for every valid configuration, the list of curves returned by
`surgebinder` has length exactly the requested `n_curves` — never more and
never fewer — assuming the retry loop performs finitely many retries (the
loop returned within the given fuel).  The first `generator` pass produces
one raw curve per requested curve (`raws.length = request`); the log-scale
relabelling and right-convergence flip do not change the count. -/
theorem surgebinder_count_exact {α : Type} [LinearOrder α] (ylo yhi : α)
    (request fuel : ℕ) (raws : List (List (α × α))) (raw : ℕ → List (α × α))
    (out : List (List (α × α))) (logF rightF : Bool) (logsteps : List α)
    (hlen : raws.length = request)
    (h : surgebinderCore ylo yhi request fuel raws raw = some out) :
    (postProcess logF rightF logsteps out).length = request := by
  rw [postProcess_length]
  unfold surgebinderCore at h
  refine topUp_length ylo yhi request raw fuel 0 _ out ?_ h
  rw [generatorAccum_of_nil]
  calc (deletion ylo yhi raws).length ≤ raws.length := List.length_filter_le _ _
    _ = request := hlen

theorem surgebinder_count_exact_witness :
    [[(((0 : ℤ), (1 : ℤ)))]].length = 1
    ∧ surgebinderCore (0 : ℤ) 2 1 0 [[((0 : ℤ), (1 : ℤ))]] (fun _ => [])
        = some [[((0 : ℤ), (1 : ℤ))]]
    ∧ (postProcess false false ([] : List ℤ) [[((0 : ℤ), (1 : ℤ))]]).length = 1 :=
  ⟨by decide, by decide,
    surgebinder_count_exact 0 2 1 0 [[((0 : ℤ), (1 : ℤ))]] (fun _ => [])
      [[((0 : ℤ), (1 : ℤ))]] false false [] (by decide) (by decide)⟩

/-- C2: every curve in the collection returned by `surgebinder` has all of
its y-coordinates inside the configured vertical interval, inclusively:
curves with a y-value strictly outside are removed by `deletion` and never
returned, and the post-processing (log relabelling, right-convergence flip)
only permutes or keeps y-values. -/
theorem surgebinder_y_within_bounds {α : Type} [LinearOrder α] (ylo yhi : α)
    (request fuel : ℕ) (raws : List (List (α × α))) (raw : ℕ → List (α × α))
    (out : List (List (α × α))) (logF rightF : Bool) (logsteps : List α)
    (h : surgebinderCore ylo yhi request fuel raws raw = some out) :
    ∀ c ∈ postProcess logF rightF logsteps out, ∀ p ∈ c, ylo ≤ p.2 ∧ p.2 ≤ yhi := by
  unfold surgebinderCore at h
  have hbase : ∀ c ∈ generatorAccum ylo yhi raws [], ∀ p ∈ c, ylo ≤ p.2 ∧ p.2 ≤ yhi := by
    intro c hc
    rw [generatorAccum_of_nil] at hc
    exact mem_deletion_bounds hc
  have hout := topUp_bounds ylo yhi request raw fuel 0 _ out hbase h
  intro c hc p hp
  obtain ⟨c0, hc0, q, hq, hpq⟩ := mem_postProcess_y logF rightF logsteps out c hc p hp
  rw [hpq]
  exact hout c0 hc0 q hq

theorem surgebinder_y_within_bounds_witness :
    surgebinderCore (0 : ℤ) 2 1 0 [[((0 : ℤ), (1 : ℤ))]] (fun _ => [])
        = some [[((0 : ℤ), (1 : ℤ))]]
    ∧ ∀ c ∈ postProcess true true [(5 : ℤ)] [[((0 : ℤ), (1 : ℤ))]],
        ∀ p ∈ c, (0 : ℤ) ≤ p.2 ∧ p.2 ≤ 2 :=
  ⟨by decide,
    surgebinder_y_within_bounds 0 2 1 0 [[((0 : ℤ), (1 : ℤ))]] (fun _ => [])
      [[((0 : ℤ), (1 : ℤ))]] true true [5] (by decide)⟩

/-- C8: the sorted change-point set produced by the sampler (including the
mandatory flat-start index when a flat start is configured) is strictly
increasing, and every pair of change points is at least `spacing` grid
indices apart.  `spacing ≥ 1` holds for every validated configuration
(`change_spacing` defaults to 1 and must be a positive integer). -/
theorem change_points_sorted_spaced (spacing need : ℕ) (hs : 1 ≤ spacing)
    (cands : List ℕ) (flat : Option ℕ) (cps : List ℕ)
    (h : changePoints spacing need cands flat = some cps) :
    cps.Pairwise (· < ·) ∧ cps.Pairwise (fun a b => spacing ≤ Nat.dist a b) := by
  unfold changePoints at h
  rw [Option.map_eq_some'] at h
  obtain ⟨out, hout, rfl⟩ := h
  have hpw_init : (initCPs flat).Pairwise (fun a b => spacing ≤ Nat.dist a b) := by
    cases flat <;> simp [initCPs]
  have hpw_out := (sampleLoop_some spacing cands need (initCPs flat) out hout).2.2 hpw_init
  have hperm := List.perm_insertionSort (· ≤ ·) out
  have hsym : ∀ {x y : ℕ}, spacing ≤ Nat.dist x y → spacing ≤ Nat.dist y x := by
    intro x y hxy
    rwa [Nat.dist_comm]
  have hpw_sorted : (List.insertionSort (· ≤ ·) out).Pairwise
      (fun a b => spacing ≤ Nat.dist a b) :=
    (hperm.pairwise_iff hsym).mpr hpw_out
  have hsorted : (List.insertionSort (· ≤ ·) out).Pairwise (· ≤ ·) :=
    List.sorted_insertionSort (· ≤ ·) out
  refine ⟨?_, hpw_sorted⟩
  refine (hsorted.and hpw_sorted).imp ?_
  intro a b hab
  refine lt_of_le_of_ne hab.1 ?_
  intro e
  have := hab.2
  rw [e, Nat.dist_self] at this
  omega

theorem change_points_sorted_spaced_witness :
    1 ≤ 2
    ∧ changePoints 2 1 [5] (some 0) = some [0, 5]
    ∧ ([0, 5] : List ℕ).Pairwise (· < ·)
      ∧ ([0, 5] : List ℕ).Pairwise (fun a b => 2 ≤ Nat.dist a b) :=
  ⟨by decide, by decide,
    change_points_sorted_spaced 2 1 (by decide) [5] (some 0) [0, 5] (by decide)⟩

/-- C9, counterexample: take `n_measure = 100`, `direction_maximum = 10`,
`change_spacing = 10` and the default `change_range = [0.1, 0.9]`, so the
restricted sub-range is `range(10, 90)` (all candidates `c` satisfy
`10 ≤ c ≤ 89`).  The externally validated precondition
`change_spacing ≤ n_measure / direction_maximum` holds (`10 ≤ 100/10`),
yet for the sampled target count `k = 10` no candidate stream whatsoever
can ever make the rejection loop accept 10 points: at most 8 indices of
`[10, 89]` can be pairwise at least 10 apart, so the loop cannot
terminate. -/
theorem sampler_nontermination_counterexample :
    ¬ ∃ (cands out : List ℕ),
        (∀ c ∈ cands, 10 ≤ c ∧ c ≤ 89) ∧ sampleLoop 10 10 cands [] = some out := by
  rintro ⟨cands, out, hmem, h⟩
  obtain ⟨hlen, hsub, hpw⟩ := sampleLoop_some 10 cands 10 [] out h
  have hpw0 := hpw List.Pairwise.nil
  have hb := pairwise_spaced_length_le 10 10 89 (by omega) out hpw0 ?_
  · rw [List.length_nil] at hlen
    norm_num at hb
    omega
  · intro x hx
    rcases hsub x hx with h1 | h2
    · exact absurd h1 (List.not_mem_nil x)
    · exact hmem x h2

/-- C9, amended: the rejection loop of the change-point sampler can
terminate with `k` accepted points from the sub-range `[lower, higher)`
with pairwise spacing `s` exactly when the sub-range is wide enough, for
which `lower + (k - 1) * s < higher` suffices; the externally validated
precondition `change_spacing ≤ n_measure / direction_maximum` alone does
not guarantee this (see the counterexample). -/
theorem sampler_termination_amended (s k lower higher : ℕ) (hs : 1 ≤ s)
    (hfit : lower + (k - 1) * s < higher) :
    ∃ cands : List ℕ, (∀ c ∈ cands, lower ≤ c ∧ c < higher) ∧
      ∃ out, sampleLoop s k cands [] = some out := by
  refine ⟨(List.range k).map (fun i => lower + i * s), ?_, ?_⟩
  · intro c hc
    simp only [List.mem_map, List.mem_range] at hc
    obtain ⟨i, hi, rfl⟩ := hc
    refine ⟨by omega, ?_⟩
    have : i * s ≤ (k - 1) * s := Nat.mul_le_mul_right _ (by omega)
    omega
  · have hlen : ((List.range k).map (fun i => lower + i * s)).length = k := by simp
    have hpw : ((List.range k).map (fun i => lower + i * s)).Pairwise
        (fun a b => s ≤ Nat.dist a b) := by
      rw [List.pairwise_map]
      refine (List.pairwise_lt_range k).imp ?_
      intro a b hab
      have h1 : (a + 1) * s ≤ b * s := Nat.mul_le_mul_right s (by omega)
      rw [add_mul, one_mul] at h1
      simp only [Nat.dist]
      omega
    have hacc : ∀ c ∈ (List.range k).map (fun i => lower + i * s),
        ∀ p ∈ ([] : List ℕ), s ≤ Nat.dist p c :=
      fun c _ p hp => absurd hp (List.not_mem_nil p)
    have h := sampleLoop_all_accept s ((List.range k).map (fun i => lower + i * s)) [] hpw hacc
    rwa [hlen] at h

theorem sampler_termination_amended_witness :
    1 ≤ 10
    ∧ 10 + (8 - 1) * 10 < 90
    ∧ ∃ cands : List ℕ, (∀ c ∈ cands, 10 ≤ c ∧ c < 90) ∧
        ∃ out, sampleLoop 10 8 cands [] = some out :=
  ⟨by decide, by decide, sampler_termination_amended 10 8 10 90 (by decide) (by decide)⟩

/-- C4: the first point of every curve built by the generator equals its
starting point, which is the configured convergence point `P` when one is
given, and `(x_interval[0], u)` with `u` the value drawn by
`uniform(y_interval[0], y_interval[1])` when none is given.  This holds for
every change-point set, direction, launch angle and force draw. -/
theorem curve_first_point_convergence (delta theta d : ℝ) (F : ℕ → ℝ)
    (steps : List ℝ) (cps : List ℕ) (P : ℝ × ℝ) (x0 u : ℝ) :
    (buildCurve delta F steps cps (startPointOf (some P) x0 u) d theta).head? = some P
    ∧ (buildCurve delta F steps cps (startPointOf none x0 u) d theta).head?
        = some (x0, u) := by
  constructor
  · have h := buildParts_head delta F steps cps 0 0 (startPointOf (some P) x0 u) d 1 theta
    simpa [buildCurve, startPointOf] using h
  · have h := buildParts_head delta F steps cps 0 0 (startPointOf none x0 u) d 1 theta
    simpa [buildCurve, startPointOf] using h

/-- C3: the x-coordinates of a generated curve are exactly the linear
sample grid, in order, so the curve has exactly `N` points; after the
log-scale relabelling its x-coordinates are exactly the `N`
logarithmically spaced positions.  The change points live in the grid
(strictly increasing, below `N`), and the curve starts on the grid's left
edge. -/
theorem curve_x_equals_grid (x0 x1 : ℝ) (N : ℕ) (hN : 1 ≤ N)
    (cps : List ℕ) (hpw : cps.Pairwise (· < ·)) (hlt : ∀ c ∈ cps, c < N)
    (d theta : ℝ) (F : ℕ → ℝ) (p0 : ℝ × ℝ) (hp0 : p0.1 = x0) :
    (generatedCurve x0 x1 N cps p0 d theta F).map Prod.fst
        = linSteps x0 (stepSize x0 x1 N) N
    ∧ (generatedCurve x0 x1 N cps p0 d theta F).length = N
    ∧ (relabel (logSteps x0 x1 N) (generatedCurve x0 x1 N cps p0 d theta F)).map Prod.fst
        = logSteps x0 x1 N := by
  have hsteps : (linSteps x0 (stepSize x0 x1 N) N).length = N := linSteps_length _ _ _
  have hmain : (generatedCurve x0 x1 N cps p0 d theta F).map Prod.fst
      = linSteps x0 (stepSize x0 x1 N) N := by
    have hx := buildParts_x (stepSize x0 x1 N) F (linSteps x0 (stepSize x0 x1 N) N)
      cps 0 0 p0 d 1 theta hpw
      (fun c hc => ⟨Nat.zero_le c, by rw [hsteps]; exact hlt c hc⟩)
      (by rw [hsteps]; omega)
      (by rw [linSteps_zero x0 (stepSize x0 x1 N) N hN, hp0])
    rw [List.drop_zero] at hx
    unfold generatedCurve buildCurve
    simpa [List.map_append] using hx
  have hlen : (generatedCurve x0 x1 N cps p0 d theta F).length = N := by
    have h := congrArg List.length hmain
    rwa [List.length_map, hsteps] at h
  refine ⟨hmain, hlen, ?_⟩
  unfold relabel
  rw [List.map_zipWith]
  exact zipWith_left_eq _ _ (by rw [logSteps_length, hlen])

theorem curve_x_equals_grid_witness :
    (1 ≤ 3 ∧ ([1] : List ℕ).Pairwise (· < ·) ∧ ∀ c ∈ ([1] : List ℕ), c < 3)
    ∧ ((generatedCurve 0 2 3 [1] ((0 : ℝ), 5) 1 0 (fun _ => 0)).map Prod.fst
          = linSteps 0 (stepSize 0 2 3) 3
        ∧ (generatedCurve 0 2 3 [1] ((0 : ℝ), 5) 1 0 (fun _ => 0)).length = 3
        ∧ (relabel (logSteps 0 2 3)
            (generatedCurve 0 2 3 [1] ((0 : ℝ), 5) 1 0 (fun _ => 0))).map Prod.fst
          = logSteps 0 2 3) :=
  ⟨⟨by decide, by decide, by decide⟩,
    curve_x_equals_grid 0 2 3 (by decide) [1] (by decide) (by decide) 1 0
      (fun _ => 0) ((0 : ℝ), 5) rfl⟩

/-- C6: for the trajectory integrator with force `F`, initial velocity `v`,
launch angle `theta`, starting point `p0` and direction `d`, the point at
the i-th sample position (for `1 ≤ i < len`) has y-coordinate
`p0.2 + d * (-(v * sin theta * t - F * t^2 / 2))` where
`t = (i * delta) / (v * cos theta)` is the cumulative horizontal
displacement over the horizontal velocity; the returned exit velocity is
`sqrt(vx^2 + vy(t_final)^2)` and the exit angle `arctan(-vy(t_final)/vx)`
with `vy(t) = v * sin theta - F * t` and `t_final` the time at the last
sample position. -/
theorem trajectory_closed_form (F v d delta theta : ℝ) (p0 : ℝ × ℝ) (ps : List ℝ)
    (i : ℕ) (h1 : 1 ≤ i) (h2 : i < ps.length) :
    ((trajectory F v d delta p0 theta ps).points
        ++ [(trajectory F v d delta p0 theta ps).last])[i]?
      = ps[i]?.map (fun xi => (xi, p0.2 + d *
          (-(v * Real.sin theta * ((i : ℝ) * delta / (v * Real.cos theta))
             - 0.5 * (F * ((i : ℝ) * delta / (v * Real.cos theta)) ^ 2)))))
    ∧ (trajectory F v d delta p0 theta ps).vel
      = Real.sqrt ((v * Real.cos theta) ^ 2
          + (v * Real.sin theta
              - F * (((ps.length - 1 : ℕ) : ℝ) * delta / (v * Real.cos theta))) ^ 2)
    ∧ (trajectory F v d delta p0 theta ps).angle
      = Real.arctan (-(v * Real.sin theta
          - F * (((ps.length - 1 : ℕ) : ℝ) * delta / (v * Real.cos theta)))
          / (v * Real.cos theta)) := by
  obtain ⟨j, rfl⟩ : ∃ j, i = j + 1 := ⟨i - 1, by omega⟩
  obtain ⟨a, tl, rfl⟩ : ∃ a tl, ps = a :: tl := by
    cases ps with
    | nil => simp at h2
    | cons a tl => exact ⟨a, tl, rfl⟩
  obtain ⟨b, rest, rfl⟩ : ∃ b rest, tl = b :: rest := by
    cases tl with
    | nil => simp only [List.length_cons, List.length_nil] at h2; omega
    | cons b rest => exact ⟨b, rest, rfl⟩
  refine ⟨?_, ?_, ?_⟩
  · rw [trajectory_full, List.getElem?_cons_succ, trajPts_getElem, List.tail_cons,
      ← List.getElem?_cons_succ (a := a), show (j : ℝ) + 1 = ((j + 1 : ℕ) : ℝ) by push_cast; ring]
    congr 1
    funext xi
    have harg : (0 : ℝ) + ((j + 1 : ℕ) : ℝ) * delta = ((j + 1 : ℕ) : ℝ) * delta := by ring
    rw [harg]
    ring_nf
  · show (trajLoop F v theta (v * Real.cos theta) d p0.2 delta
        (b :: rest) 0 (v * Real.sin theta) v [p0]).2.2 = _
    rw [trajLoop_snd_cons]
    have harg : (0 : ℝ) + ((rest.length : ℝ) + 1) * delta
        = (((a :: b :: rest).length - 1 : ℕ) : ℝ) * delta := by
      simp only [List.length_cons]
      push_cast
      ring
    rw [harg]
  · show Real.arctan (-(trajLoop F v theta (v * Real.cos theta) d p0.2 delta
        (b :: rest) 0 (v * Real.sin theta) v [p0]).2.1 / (v * Real.cos theta)) = _
    rw [trajLoop_snd_cons]
    have harg : (0 : ℝ) + ((rest.length : ℝ) + 1) * delta
        = (((a :: b :: rest).length - 1 : ℕ) : ℝ) * delta := by
      simp only [List.length_cons]
      push_cast
      ring
    rw [harg]

theorem trajectory_closed_form_witness :
    (1 ≤ 1 ∧ 1 < ([0, 1] : List ℝ).length)
    ∧ (((trajectory 0 1 1 1 ((0 : ℝ), 0) 0 [0, 1]).points
          ++ [(trajectory 0 1 1 1 ((0 : ℝ), 0) 0 [0, 1]).last])[1]?
        = (([0, 1] : List ℝ))[1]?.map (fun xi => (xi, ((0 : ℝ), (0 : ℝ)).2 + 1 *
            (-(1 * Real.sin 0 * (((1 : ℕ) : ℝ) * 1 / (1 * Real.cos 0))
               - 0.5 * (0 * (((1 : ℕ) : ℝ) * 1 / (1 * Real.cos 0)) ^ 2)))))
      ∧ (trajectory 0 1 1 1 ((0 : ℝ), 0) 0 [0, 1]).vel
        = Real.sqrt ((1 * Real.cos 0) ^ 2
            + (1 * Real.sin 0
                - 0 * (((([0, 1] : List ℝ).length - 1 : ℕ) : ℝ) * 1 / (1 * Real.cos 0))) ^ 2)
      ∧ (trajectory 0 1 1 1 ((0 : ℝ), 0) 0 [0, 1]).angle
        = Real.arctan (-(1 * Real.sin 0
            - 0 * (((([0, 1] : List ℝ).length - 1 : ℕ) : ℝ) * 1 / (1 * Real.cos 0)))
            / (1 * Real.cos 0))) :=
  ⟨⟨by decide, by decide⟩,
    trajectory_closed_form 0 1 1 1 0 ((0 : ℝ), 0) [0, 1] 1 (by decide) (by decide)⟩

/-- C7, counterexample: in a `trajectory` call over the sample positions
`[0, 1]` starting at `(0, 5)`, the returned point list is `[(0, 5)]`: it
contains the point at the FIRST input position.  The claim says the first
point is excluded from the returned list (with the final point returned
separately), which would make the returned list `[]`, or `[(1, 5)]` if
only the final point were dropped — the code returns neither. -/
theorem trajectory_return_counterexample :
    (trajectory 0 1 1 1 ((0 : ℝ), 5) 0 [0, 1]).points = [((0 : ℝ), 5)]
    ∧ [((0 : ℝ), 5)] ≠ ([] : List (ℝ × ℝ))
    ∧ [((0 : ℝ), 5)] ≠ [((1 : ℝ), 5)] := by
  refine ⟨?_, by simp, by simp⟩
  show (trajLoop 0 1 0 (1 * Real.cos 0) 1 (5 : ℝ) 1
      ([0, 1] : List ℝ).tail 0 (1 * Real.sin 0) 1 [((0 : ℝ), 5)]).1.dropLast = _
  rw [List.tail_cons, trajLoop_fst, trajPts, trajPts, List.dropLast_concat]

/-- C7, amended: the returned point list contains the (x, y) point at each
input position with the LAST point excluded — that is, `points ++ [last]`
covers every input position in order, and the segment's first position
(the continuation of the previous segment) IS included in the returned
list; the final point, the exit angle and the exit velocity magnitude are
returned separately. -/
theorem trajectory_return_amended (F v d delta theta x0 y0 : ℝ) (ps : List ℝ)
    (hne : ps ≠ []) (hx : ps.head hne = x0) :
    ((trajectory F v d delta (x0, y0) theta ps).points
        ++ [(trajectory F v d delta (x0, y0) theta ps).last]).map Prod.fst = ps
    ∧ (trajectory F v d delta (x0, y0) theta ps).points
      = ((trajectory F v d delta (x0, y0) theta ps).points
          ++ [(trajectory F v d delta (x0, y0) theta ps).last]).dropLast := by
  constructor
  · have h := trajectory_x F v d delta theta (x0, y0) ps
    rw [List.map_append, List.map_cons, List.map_nil, h]
    show x0 :: ps.tail = ps
    rw [← hx, List.head_cons_tail]
  · exact List.dropLast_concat.symm

theorem trajectory_return_amended_witness :
    ((trajectory 0 1 1 1 ((0 : ℝ), 5) 0 [0, 1]).points
        ++ [(trajectory 0 1 1 1 ((0 : ℝ), 5) 0 [0, 1]).last]).map Prod.fst = [0, 1]
    ∧ (trajectory 0 1 1 1 ((0 : ℝ), 5) 0 [0, 1]).points
      = ((trajectory 0 1 1 1 ((0 : ℝ), 5) 0 [0, 1]).points
          ++ [(trajectory 0 1 1 1 ((0 : ℝ), 5) 0 [0, 1]).last]).dropLast :=
  trajectory_return_amended 0 1 1 1 0 0 5 [0, 1] (by simp) rfl

/-- C10: a `trajectory` call with fewer than two sample positions (the
degenerate segment arising when the first change point is the grid index
of the segment start) returns an empty point list, the starting point
unchanged as the last point, the input velocity unchanged, and the exit
angle `arctan(-tan theta)`. -/
theorem trajectory_degenerate (F v d delta theta : ℝ) (p0 : ℝ × ℝ) (ps : List ℝ)
    (hlen : ps.length < 2) (hv : v ≠ 0) :
    (trajectory F v d delta p0 theta ps).points = []
    ∧ (trajectory F v d delta p0 theta ps).last = p0
    ∧ (trajectory F v d delta p0 theta ps).vel = v
    ∧ (trajectory F v d delta p0 theta ps).angle = Real.arctan (-Real.tan theta) := by
  have htail : ps.tail = [] := by
    cases ps with
    | nil => rfl
    | cons a tl =>
      cases tl with
      | nil => rfl
      | cons b tl2 => simp at hlen; omega
  unfold trajectory
  rw [htail]
  refine ⟨rfl, rfl, rfl, ?_⟩
  show Real.arctan (-(v * Real.sin theta) / (v * Real.cos theta)) = _
  rw [neg_div, mul_div_mul_left _ _ hv, ← Real.tan_eq_sin_div_cos]

theorem trajectory_degenerate_witness :
    (([] : List ℝ).length < 2 ∧ (1 : ℝ) ≠ 0)
    ∧ ((trajectory 0 1 1 1 ((0 : ℝ), 5) 0 []).points = []
      ∧ (trajectory 0 1 1 1 ((0 : ℝ), 5) 0 []).last = ((0 : ℝ), 5)
      ∧ (trajectory 0 1 1 1 ((0 : ℝ), 5) 0 []).vel = 1
      ∧ (trajectory 0 1 1 1 ((0 : ℝ), 5) 0 []).angle = Real.arctan (-Real.tan 0)) :=
  ⟨⟨by decide, one_ne_zero⟩,
    trajectory_degenerate 0 1 1 1 0 ((0 : ℝ), 5) [] (by decide) one_ne_zero⟩

/-- C5, counterexample: for the segment force bound of lines 677-682 with
`x_hi = 3`, `y_interval = [0, 2]`, segment start `P = (1, 1)`, direction
`d = 1`, velocity `v = 2` and angle `theta = 0`, the code computes
`force_max = 2 * spread / rest_time^2 = 2` with
`rest_time = (x_hi - P.x) / v = 1`, while the claimed formula
`2 * (v * sin theta - (-d) * headroom) / R^2` gives `1/2`. -/
theorem force_max_formula_counterexample :
    forceMaxSeg 3 0 2 ((1 : ℝ), 1) 1 2 0 ≠ forceMaxClaimed 3 0 2 ((1 : ℝ), 1) 1 2 0 := by
  unfold forceMaxSeg forceMaxClaimed yBound
  norm_num

/-- C5, amended: the numerator of the claim is right, but the code divides
by `rest_time^2`, not by `R^2`: for segments after the first,
`rest_time = R / v` with `R = x_hi - P.x` the remaining horizontal
distance, so `force_max = 2 * (v * sin theta - (-d) * headroom) * v^2 /
R^2`; for the first segment (lines 616-621) `rest_time = x_hi / v`
measures from zero rather than from `P.x`.  The claimed formula agrees
with the code only when `v^2 = 1` (and, for the first segment, when the
x-interval starts at 0). -/
theorem force_max_formula_amended (x1 ylo yhi : ℝ) (p : ℝ × ℝ) (d : ℤ) (v theta : ℝ) :
    forceMaxSeg x1 ylo yhi p d v theta
      = 2 * (v * Real.sin theta + (d : ℝ) * (yBound ylo yhi d - p.2)) * v ^ 2
          / (x1 - p.1) ^ 2
    ∧ forceMaxInit x1 ylo yhi p d v theta
      = 2 * (v * Real.sin theta + (d : ℝ) * (yBound ylo yhi d - p.2)) * v ^ 2
          / x1 ^ 2 := by
  constructor
  · simp only [forceMaxSeg]
    rw [div_pow, div_div_eq_mul_div]
    ring_nf
  · simp only [forceMaxInit]
    rw [div_pow, div_div_eq_mul_div]
    ring_nf

end Smurves
